import Mathlib

/-!
Shallow embedding of the security core of the filesystem-guardian repository:
path validation (`validatePath` and friends from `src/utils/path-validator.ts`),
attribute-name sanitization (`sanitizeAttributes` from `spotlight-service.ts`),
value decoding (`parseSpotlightValue`, `decodeXattrValue`), and error
sanitization (`sanitizeErrorMessage`), together with proofs about the claims
on these functions.

JavaScript builtins used by the source (decodeURIComponent, path.resolve,
path.normalize, Number, JSON.parse, Buffer hex/utf8 codecs, regex replace)
are modelled explicitly below.  Strings are modelled as sequences of Unicode
scalar values (Lean `String`).  Process state that the source reads
implicitly is passed explicitly: `cwd` models `process.cwd()`, `isSym`
models the `lstatSync(..).isSymbolicLink()` observation, `nfc` models
`String.prototype.normalize("NFC")` (the identity on every ASCII string,
which covers all concrete inputs evaluated here), and `roots` models the
module constant `ALLOWED_ROOTS` (injected, per the configuration design
note of the spec).
-/

namespace FsGuardian

/-- Value of a hexadecimal digit character, `none` for non-hex characters. -/
def hexVal? (c : Char) : Option Nat :=
  if '0' ≤ c ∧ c ≤ '9' then some (c.toNat - 48)
  else if 'a' ≤ c ∧ c ≤ 'f' then some (c.toNat - 87)
  else if 'A' ≤ c ∧ c ≤ 'F' then some (c.toNat - 55)
  else none

/-- Read one percent escape `%XY` from the front of a character list,
returning the byte value and the remaining characters. -/
def readPct : List Char → Option (Nat × List Char)
  | c0 :: c1 :: c2 :: rest =>
    if c0 = '%' then
      match hexVal? c1, hexVal? c2 with
      | some h1, some h2 => some (16 * h1 + h2, rest)
      | _, _ => none
    else none
  | _ => none

/-- Is the byte a UTF-8 continuation byte. -/
def isCont (b : Nat) : Bool := 0x80 ≤ b && b ≤ 0xBF

/-- Read one complete percent-escaped UTF-8 sequence (one to four `%XY`
groups) from the front of a character list, as `decodeURIComponent` does,
returning the decoded character and the remaining characters.  `none` models
a thrown `URIError` (malformed escape, overlong encoding, surrogate or
out-of-range code point, or a missing continuation escape). -/
def readEscape (l : List Char) : Option (Char × List Char) :=
  (readPct l).bind fun (b1, r1) =>
    if b1 < 0x80 then some (Char.ofNat b1, r1)
    else if 0xC0 ≤ b1 ∧ b1 ≤ 0xDF then
      (readPct r1).bind fun (b2, r2) =>
        if isCont b2 then
          let cp := (b1 - 0xC0) * 64 + (b2 - 0x80)
          if 0x80 ≤ cp then some (Char.ofNat cp, r2) else none
        else none
    else if 0xE0 ≤ b1 ∧ b1 ≤ 0xEF then
      (readPct r1).bind fun (b2, r2) =>
        (readPct r2).bind fun (b3, r3) =>
          if isCont b2 && isCont b3 then
            let cp := (b1 - 0xE0) * 4096 + (b2 - 0x80) * 64 + (b3 - 0x80)
            if 0x800 ≤ cp ∧ ¬ (0xD800 ≤ cp ∧ cp ≤ 0xDFFF) then
              some (Char.ofNat cp, r3)
            else none
          else none
    else if 0xF0 ≤ b1 ∧ b1 ≤ 0xF7 then
      (readPct r1).bind fun (b2, r2) =>
        (readPct r2).bind fun (b3, r3) =>
          (readPct r3).bind fun (b4, r4) =>
            if isCont b2 && isCont b3 && isCont b4 then
              let cp := (b1 - 0xF0) * 262144 + (b2 - 0x80) * 4096 +
                (b3 - 0x80) * 64 + (b4 - 0x80)
              if 0x10000 ≤ cp ∧ cp ≤ 0x10FFFF then some (Char.ofNat cp, r4)
              else none
            else none
    else none

/-- One full pass of `decodeURIComponent` over a character list.  The fuel
argument only serves structural recursion; `fuel = length` always suffices
because every step consumes at least one character. -/
def decodeAux : Nat → List Char → Option (List Char)
  | _, [] => some []
  | 0, _ :: _ => none
  | fuel + 1, c :: rest =>
    if c = '%' then
      match readEscape (c :: rest) with
      | none => none
      | some (ch, r) => (decodeAux fuel r).map (fun t => ch :: t)
    else (decodeAux fuel rest).map (fun t => c :: t)

/-- Model of the JavaScript builtin `decodeURIComponent`; `none` models a
thrown `URIError`. -/
def jsDecodeURIComponent (s : String) : Option String :=
  (decodeAux s.data.length s.data).map (fun l => ⟨l⟩)

/-- The repeated-decoding loop of `validatePath` (lines 225-234 of the
source): starting from `prev = ""` it decodes until the result stops
changing, or stops on a decode error keeping the last successful decode.
Returns the final string together with the number of `decodeURIComponent`
calls performed.  The fuel only serves structural recursion; the supplied
fuel always suffices because a changed decode is strictly shorter. -/
def decodeFixAux : Nat → String → String → String × Nat
  | 0, _, d => (d, 0)
  | fuel + 1, prev, d =>
    if d = prev then (d, 0)
    else
      match jsDecodeURIComponent d with
      | none => (d, 1)
      | some d2 =>
        let r := decodeFixAux fuel d d2
        (r.1, r.2 + 1)

/-- Result of the repeated percent-decoding loop of `validatePath`. -/
def decodeLoop (s : String) : String := (decodeFixAux (s.length + 2) "" s).1

/-- Number of `decodeURIComponent` rounds the loop of `validatePath`
performs on input `s`. -/
def decodeRounds (s : String) : Nat := (decodeFixAux (s.length + 2) "" s).2

/-- Split a character list on the path separator, keeping empty pieces
(the behaviour of splitting on every slash). -/
def splitSlash : List Char → List (List Char)
  | [] => [[]]
  | c :: rest =>
    if c = '/' then [] :: splitSlash rest
    else
      match splitSlash rest with
      | [] => [[c]]
      | s :: ss => (c :: s) :: ss

/-- Lexical segment collapsing for absolute paths, as in Node's
`path.posix` normalization with `allowAboveRoot = false`: empty and `.`
segments are dropped, `..` pops the previous segment (or is dropped at the
root). -/
def collapseAbsAux (acc : List (List Char)) : List (List Char) → List (List Char)
  | [] => acc
  | seg :: rest =>
    if seg = [] ∨ seg = ['.'] then collapseAbsAux acc rest
    else if seg = ['.', '.'] then collapseAbsAux acc.dropLast rest
    else collapseAbsAux (acc ++ [seg]) rest

/-- Collapse the segments of an absolute path. -/
def collapseAbs (segs : List (List Char)) : List (List Char) := collapseAbsAux [] segs

/-- Lexical segment collapsing for relative paths (`allowAboveRoot = true`):
leading `..` segments are kept. -/
def collapseRelAux (acc : List (List Char)) : List (List Char) → List (List Char)
  | [] => acc
  | seg :: rest =>
    if seg = [] ∨ seg = ['.'] then collapseRelAux acc rest
    else if seg = ['.', '.'] then
      if acc ≠ [] ∧ acc.getLast? ≠ some ['.', '.'] then collapseRelAux acc.dropLast rest
      else collapseRelAux (acc ++ [seg]) rest
    else collapseRelAux (acc ++ [seg]) rest

/-- Collapse the segments of a relative path. -/
def collapseRel (segs : List (List Char)) : List (List Char) := collapseRelAux [] segs

/-- Join path segments with the separator. -/
def joinSegs : List (List Char) → List Char
  | [] => []
  | [s] => s
  | s :: rest => s ++ '/' :: joinSegs rest

/-- Model of Node's `path.resolve(p)` under working directory `cwd`
(posix): an absolute `p` is collapsed in place, a relative `p` is joined
onto `cwd` first; the result is absolute with no trailing separator
(except the bare root). -/
def resolveChars (cwd p : List Char) : List Char :=
  '/' :: joinSegs (collapseAbs (splitSlash
    (if p.head? = some '/' then p else cwd ++ '/' :: p)))

/-- Model of Node's `path.posix.normalize`. -/
def normChars (p : List Char) : List Char :=
  if p = [] then ['.']
  else if p.head? = some '/' then
    if joinSegs (collapseAbs (splitSlash p)) = [] then ['/']
    else ('/' :: joinSegs (collapseAbs (splitSlash p))) ++
      (if p.getLast? = some '/' then ['/'] else [])
  else
    if joinSegs (collapseRel (splitSlash p)) = [] then
      (if p.getLast? = some '/' then ['.', '/'] else ['.'])
    else joinSegs (collapseRel (splitSlash p)) ++
      (if p.getLast? = some '/' then ['/'] else [])

/-- String-level `path.resolve` model. -/
def resolvePath (cwd p : String) : String := ⟨resolveChars cwd.data p.data⟩

/-- String-level `path.normalize` model. -/
def normalizePosix (p : String) : String := ⟨normChars p.data⟩

/-- Failure taxonomy of `validatePath`. -/
inductive PathError where
  | invalidInput
  | symlinkRejected
  | outsideSandbox
deriving DecidableEq

/-- The sandbox root allow-list hardcoded in `path-validator.ts`. -/
def ALLOWED_ROOTS : List String :=
  ["/Users/macbook/Documents/BoxOfPrompts-Central",
   "/Users/macbook/Documents/Dropository",
   "/Users/macbook/Documents/BoxOfPrompts-Central/Dropository"]

/-- Null-byte stripping step of `validatePath` (`replace(/\0/g, "")`). -/
def stripNulls (s : String) : String := ⟨s.data.filter (fun c => c != '\x00')⟩

/-- The sandbox gate of `validatePath`: the normalized path must equal a
(normalized) root or start with the root followed by the separator. -/
def sandboxOk (roots : List String) (normalized : String) : Bool :=
  roots.any fun root =>
    let nr := normalizePosix root
    normalized == nr || List.isPrefixOf (nr.data ++ ['/']) normalized.data

/-- The normalization pipeline of `validatePath` before the symlink and
sandbox checks: strip nulls, NFC-canonicalize, percent-decode to a fixed
point, resolve against the working directory, re-normalize. -/
def normalizedOf (nfc : String → String) (cwd p : String) : String :=
  normalizePosix (resolvePath cwd (decodeLoop (nfc (stripNulls p))))

/-- `validatePath` from `path-validator.ts`.  `nfc` models
`String.prototype.normalize("NFC")`, `isSym` the symlink observation made
through `lstatSync` (false for missing files, matching the ENOENT branch),
`cwd` the process working directory, `roots` the `ALLOWED_ROOTS`
constant. -/
def validatePath (nfc : String → String) (isSym : String → Bool)
    (cwd : String) (roots : List String) (filePath : String) :
    Except PathError String :=
  if filePath = "" then .error .invalidInput
  else
    let normalized := normalizedOf nfc cwd filePath
    if isSym normalized then .error .symlinkRejected
    else if sandboxOk roots normalized then .ok normalized
    else .error .outsideSandbox

/-- `isPathAllowed` from `path-validator.ts`: converts any failure to
`false`. -/
def isPathAllowed (nfc : String → String) (isSym : String → Bool)
    (cwd : String) (roots : List String) (filePath : String) : Bool :=
  match validatePath nfc isSym cwd roots filePath with
  | .ok _ => true
  | .error _ => false

/-- `filterAllowedPaths` from `path-validator.ts`. -/
def filterAllowedPaths (nfc : String → String) (isSym : String → Bool)
    (cwd : String) (roots : List String) (paths : List String) : List String :=
  paths.filter (isPathAllowed nfc isSym cwd roots)

/-- The JavaScript whitespace class (`\s` in regexes, and the characters
trimmed by `String.prototype.trim` and by `Number`). -/
def isJsSpace (c : Char) : Bool :=
  c = ' ' || c = '\t' || c = '\n' || c = '\r' || c = '\x0b' || c = '\x0c' ||
  c = '\u00A0' || c = '\u1680' || ('\u2000' ≤ c && c ≤ '\u200A') ||
  c = '\u2028' || c = '\u2029' || c = '\u202F' || c = '\u205F' ||
  c = '\u3000' || c = '\uFEFF'

/-- Trim JavaScript whitespace from both ends of a character list. -/
def jsTrimList (cs : List Char) : List Char :=
  ((cs.dropWhile isJsSpace).reverse.dropWhile isJsSpace).reverse

/-- Model of `String.prototype.trim`. -/
def jsTrim (s : String) : String := ⟨jsTrimList s.data⟩

/-- Numeric result of JavaScript `Number(string)`: a finite value (modelled
exactly as a rational; every value the claims touch is exactly
representable) or an infinity.  `none` models `NaN`. -/
inductive JsNum where
  | finite (q : ℚ)
  | posInf
  | negInf
deriving DecidableEq

/-- Value of a decimal digit list, `none` if empty or not all digits. -/
def decDigits? (cs : List Char) : Option Nat :=
  if cs ≠ [] ∧ cs.all Char.isDigit then
    some (cs.foldl (fun acc c => 10 * acc + (c.toNat - 48)) 0)
  else none

/-- Digits of a hexadecimal integer literal, `none` if empty or invalid. -/
def hexDigits? (cs : List Char) : Option Nat :=
  if cs ≠ [] ∧ cs.all (fun c => (hexVal? c).isSome) then
    some (cs.foldl (fun acc c => 16 * acc + (hexVal? c).getD 0) 0)
  else none

/-- Digits of an octal integer literal, `none` if empty or invalid. -/
def octDigits? (cs : List Char) : Option Nat :=
  if cs ≠ [] ∧ cs.all (fun c => '0' ≤ c ∧ c ≤ '7') then
    some (cs.foldl (fun acc c => 8 * acc + (c.toNat - 48)) 0)
  else none

/-- Digits of a binary integer literal, `none` if empty or invalid. -/
def binDigits? (cs : List Char) : Option Nat :=
  if cs ≠ [] ∧ cs.all (fun c => c = '0' ∨ c = '1') then
    some (cs.foldl (fun acc c => 2 * acc + (c.toNat - 48)) 0)
  else none

/-- Exact value of a signed decimal mantissa with a scale and a decimal
exponent: `±m · 10^(e - scale)`, built with integer arithmetic and a
single `Rat.divInt`, so that it evaluates inside the kernel. -/
def decValue (neg : Bool) (m scale : Nat) (e : ℤ) : ℚ :=
  if (scale : ℤ) ≤ e then
    let n : ℕ := m * 10 ^ (e - (scale : ℤ)).toNat
    Rat.divInt (if neg then -(n : ℤ) else (n : ℤ)) 1
  else
    Rat.divInt (if neg then -(m : ℤ) else (m : ℤ))
      (((10 : ℕ) ^ ((scale : ℤ) - e).toNat : ℕ) : ℤ)

/-- Parse the mantissa-with-exponent part of a JavaScript decimal numeric
literal (`digits [. digits] [e[±]digits]`, also `.digits`), consuming the
whole input; `neg` is the already-consumed sign. -/
def parseDec? (neg : Bool) (cs : List Char) : Option ℚ :=
  let mant := cs.takeWhile (fun c => c ≠ 'e' ∧ c ≠ 'E')
  let expPart := cs.dropWhile (fun c => c ≠ 'e' ∧ c ≠ 'E')
  let expVal? : Option ℤ :=
    match expPart with
    | [] => some 0
    | _ :: es =>
      match es with
      | '+' :: ds => (decDigits? ds).map (fun n => (n : ℤ))
      | '-' :: ds => (decDigits? ds).map (fun n => -(n : ℤ))
      | ds => (decDigits? ds).map (fun n => (n : ℤ))
  match expVal? with
  | none => none
  | some e =>
    let ip := mant.takeWhile (fun c => c ≠ '.')
    let fpRest := mant.dropWhile (fun c => c ≠ '.')
    match fpRest with
    | [] =>
      match decDigits? ip with
      | some n => some (decValue neg n 0 e)
      | none => none
    | _ :: fp =>
      if ip.all Char.isDigit ∧ fp.all Char.isDigit ∧ ¬ (ip = [] ∧ fp = []) then
        let m := (ip ++ fp).foldl (fun acc c => 10 * acc + (c.toNat - 48)) 0
        some (decValue neg m fp.length e)
      else none

/-- Model of JavaScript `Number(string)` (the `StringToNumber` coercion):
trims whitespace, the empty remainder is 0, `0x`/`0o`/`0b` radix literals,
optional sign, `Infinity`, else a decimal literal; `none` is `NaN`. -/
def jsStringToNumber (s : String) : Option JsNum :=
  let t := jsTrimList s.data
  if t = [] then some (.finite 0)
  else
    match t with
    | '0' :: 'x' :: ds => (hexDigits? ds).map (fun n => .finite (n : ℚ))
    | '0' :: 'X' :: ds => (hexDigits? ds).map (fun n => .finite (n : ℚ))
    | '0' :: 'o' :: ds => (octDigits? ds).map (fun n => .finite (n : ℚ))
    | '0' :: 'O' :: ds => (octDigits? ds).map (fun n => .finite (n : ℚ))
    | '0' :: 'b' :: ds => (binDigits? ds).map (fun n => .finite (n : ℚ))
    | '0' :: 'B' :: ds => (binDigits? ds).map (fun n => .finite (n : ℚ))
    | _ =>
      let signNeg := t.head? = some '-'
      let body := if t.head? = some '-' ∨ t.head? = some '+' then t.tail else t
      if body = ['I', 'n', 'f', 'i', 'n', 'i', 't', 'y'] then
        some (if signNeg then .negInf else .posInf)
      else
        (parseDec? signNeg body).map .finite

/-- Split a character list on a separator character, keeping empty pieces
(the behaviour of `String.prototype.split` with a one-character
separator). -/
def splitOnChar (sep : Char) : List Char → List (List Char)
  | [] => [[]]
  | c :: rest =>
    if c = sep then [] :: splitOnChar sep rest
    else
      match splitOnChar sep rest with
      | [] => [[c]]
      | s :: ss => (c :: s) :: ss

/-- Typed result of `parseSpotlightValue` (the mdls value grammar). -/
inductive SpotValue where
  | null
  | list (xs : List String)
  | str (s : String)
  | num (n : JsNum)
deriving DecidableEq

/-- Strip one leading and one trailing double quote, as the source's
`replace(/^"|"$/g, "")` does. -/
def stripQuoteEnds (s : String) : String :=
  let l := s.data
  let l := if l.head? = some '"' then l.tail else l
  let l := if l.getLast? = some '"' then l.dropLast else l
  ⟨l⟩

/-- `parseSpotlightValue` from `spotlight-service.ts`: the literal mdls
value grammar — `(null)`, parenthesised comma-separated lists, quoted
strings, numbers via `Number(..)`, and a raw-string fallback. -/
def parseSpotlightValue (value : String) : SpotValue :=
  if value = "(null)" then .null
  else if value.data.head? = some '(' ∧ value.data.getLast? = some ')' then
    let inner := jsTrim ⟨(value.data.drop 1).dropLast⟩
    if inner = "" then .list []
    else .list ((splitOnChar ',' inner.data).map fun v => stripQuoteEnds (jsTrim ⟨v⟩))
  else if value.data.head? = some '"' ∧ value.data.getLast? = some '"' then
    .str ⟨(value.data.drop 1).dropLast⟩
  else
    match jsStringToNumber value with
    | some n => .num n
    | none => .str value

/-- Valid attribute-name characters: the regex classes `[a-zA-Z_]`. -/
def isAttrStartChar (c : Char) : Bool :=
  ('a' ≤ c && c ≤ 'z') || ('A' ≤ c && c ≤ 'Z') || c = '_'

/-- Valid attribute-name tail characters: the regex class `[a-zA-Z0-9_]`. -/
def isAttrChar (c : Char) : Bool := isAttrStartChar c || ('0' ≤ c && c ≤ '9')

/-- Test of the attribute-identifier regex from `spotlight-service.ts`
(anchored `[a-zA-Z_][a-zA-Z0-9_]*`). -/
def matchesAttrPattern (s : String) : Bool :=
  match s.data with
  | [] => false
  | c :: cs => isAttrStartChar c && cs.all isAttrChar

/-- `sanitizeAttributes` from `spotlight-service.ts`: keep the tokens that
are truthy strings matching the identifier pattern; everything else is
dropped silently from the returned sequence. -/
def sanitizeAttributes (attrs : List String) : List String :=
  attrs.filter fun attr => !(attr == "") && matchesAttrPattern attr

/-- Parsed JSON value, the possible results of `JSON.parse`. -/
inductive JsonValue where
  | null
  | bool (b : Bool)
  | num (q : ℚ)
  | str (s : String)
  | arr (elems : List JsonValue)
  | obj (fields : List (String × JsonValue))

/-- Skip JSON insignificant whitespace. -/
def jsonSkipWs (cs : List Char) : List Char :=
  cs.dropWhile fun c => c = ' ' || c = '\t' || c = '\n' || c = '\r'

/-- Parse the body of a JSON string literal (after the opening quote),
returning the string and the characters after the closing quote.  Surrogate
pairs in `\uXXXX` escapes are combined; a lone surrogate becomes U+FFFD
(our strings hold Unicode scalar values). -/
def jsonStringAux : Nat → List Char → List Char → Option (String × List Char)
  | 0, _, _ => none
  | fuel + 1, acc, cs =>
    match cs with
    | [] => none
    | '"' :: rest => some (⟨acc.reverse⟩, rest)
    | '\\' :: e :: rest =>
      match e with
      | '"' => jsonStringAux fuel ('"' :: acc) rest
      | '\\' => jsonStringAux fuel ('\\' :: acc) rest
      | '/' => jsonStringAux fuel ('/' :: acc) rest
      | 'b' => jsonStringAux fuel ('\x08' :: acc) rest
      | 'f' => jsonStringAux fuel ('\x0c' :: acc) rest
      | 'n' => jsonStringAux fuel ('\n' :: acc) rest
      | 'r' => jsonStringAux fuel ('\r' :: acc) rest
      | 't' => jsonStringAux fuel ('\t' :: acc) rest
      | 'u' =>
        match rest with
        | c1 :: c2 :: c3 :: c4 :: rest2 =>
          match hexVal? c1, hexVal? c2, hexVal? c3, hexVal? c4 with
          | some h1, some h2, some h3, some h4 =>
            let cp := 4096 * h1 + 256 * h2 + 16 * h3 + h4
            if 0xD800 ≤ cp ∧ cp ≤ 0xDFFF then
              jsonStringAux fuel ('\uFFFD' :: acc) rest2
            else jsonStringAux fuel (Char.ofNat cp :: acc) rest2
          | _, _, _, _ => none
        | _ => none
      | _ => none
    | c :: rest =>
      if c.toNat < 0x20 then none else jsonStringAux fuel (c :: acc) rest

/-- Parse a JSON string literal body with sufficient fuel. -/
def jsonString (cs : List Char) : Option (String × List Char) :=
  jsonStringAux (cs.length + 1) [] cs

/-- Parse a JSON number (`-?(0|[1-9][0-9]*)(.[0-9]+)?([eE][+-]?[0-9]+)?`)
from the front of the input, returning its exact rational value. -/
def jsonNumber (cs : List Char) : Option (ℚ × List Char) :=
  let signNeg := cs.head? = some '-'
  let cs1 := if signNeg then cs.tail else cs
  let ip := cs1.takeWhile Char.isDigit
  let rest1 := cs1.dropWhile Char.isDigit
  if ip = [] then none
  else if ip.length > 1 ∧ ip.head? = some '0' then none
  else
    let parseFrac : Option (List Char × List Char) :=
      match rest1 with
      | '.' :: r =>
        let fp := r.takeWhile Char.isDigit
        if fp = [] then none else some (fp, r.dropWhile Char.isDigit)
      | _ => some ([], rest1)
    match parseFrac with
    | none => none
    | some (fp, rest2) =>
      let parseExp : Option (ℤ × List Char) :=
        match rest2 with
        | 'e' :: r | 'E' :: r =>
          match r with
          | '+' :: ds =>
            (decDigits? (ds.takeWhile Char.isDigit)).map
              (fun n => ((n : ℤ), ds.dropWhile Char.isDigit))
          | '-' :: ds =>
            (decDigits? (ds.takeWhile Char.isDigit)).map
              (fun n => (-(n : ℤ), ds.dropWhile Char.isDigit))
          | ds =>
            (decDigits? (ds.takeWhile Char.isDigit)).map
              (fun n => ((n : ℤ), ds.dropWhile Char.isDigit))
        | _ => some (0, rest2)
      match parseExp with
      | none => none
      | some (e, rest3) =>
        let m := (ip ++ fp).foldl (fun acc c => 10 * acc + (c.toNat - 48)) 0
        some (decValue signNeg m fp.length e, rest3)

/-- A pending container during JSON parsing: an array with the elements
parsed so far, or an object with the fields parsed so far and the key whose
value is being parsed. -/
inductive JFrame where
  | arr (acc : List JsonValue)
  | obj (acc : List (String × JsonValue)) (key : String)

/-- State of the JSON parser driver: about to parse a value, or holding a
completed value. -/
inductive JState where
  | val (cs : List Char)
  | done (v : JsonValue) (cs : List Char)

/-- Driver of the JSON parser: a stack machine over `JFrame`s.  Every
transition consumes at least one input character, so `length + 2` fuel
always suffices. -/
def jsonRun : Nat → List JFrame → JState → Option JsonValue
  | 0, _, _ => none
  | fuel + 1, stack, .val cs =>
    match jsonSkipWs cs with
    | 'n' :: 'u' :: 'l' :: 'l' :: rest => jsonRun fuel stack (.done .null rest)
    | 't' :: 'r' :: 'u' :: 'e' :: rest => jsonRun fuel stack (.done (.bool true) rest)
    | 'f' :: 'a' :: 'l' :: 's' :: 'e' :: rest => jsonRun fuel stack (.done (.bool false) rest)
    | '"' :: rest =>
      match jsonString rest with
      | some (s, r) => jsonRun fuel stack (.done (.str s) r)
      | none => none
    | '[' :: rest =>
      (match jsonSkipWs rest with
       | ']' :: r => jsonRun fuel stack (.done (.arr []) r)
       | rest2 => jsonRun fuel (.arr [] :: stack) (.val rest2))
    | '{' :: rest =>
      (match jsonSkipWs rest with
       | '}' :: r => jsonRun fuel stack (.done (.obj []) r)
       | '"' :: kr =>
         match jsonString kr with
         | some (k, r2) =>
           (match jsonSkipWs r2 with
            | ':' :: r3 => jsonRun fuel (.obj [] k :: stack) (.val r3)
            | _ => none)
         | none => none
       | _ => none)
    | cs2 =>
      match jsonNumber cs2 with
      | some (q, r) => jsonRun fuel stack (.done (.num q) r)
      | none => none
  | fuel + 1, stack, .done v cs =>
    match stack with
    | [] => if jsonSkipWs cs = [] then some v else none
    | .arr acc :: st =>
      (match jsonSkipWs cs with
       | ',' :: r => jsonRun fuel (.arr (acc ++ [v]) :: st) (.val r)
       | ']' :: r => jsonRun fuel st (.done (.arr (acc ++ [v])) r)
       | _ => none)
    | .obj acc k :: st =>
      (match jsonSkipWs cs with
       | ',' :: r =>
         (match jsonSkipWs r with
          | '"' :: kr =>
            match jsonString kr with
            | some (k2, r2) =>
              (match jsonSkipWs r2 with
               | ':' :: r3 => jsonRun fuel (.obj (acc ++ [(k, v)]) k2 :: st) (.val r3)
               | _ => none)
            | none => none
          | _ => none)
       | '}' :: r => jsonRun fuel st (.done (.obj (acc ++ [(k, v)])) r)
       | _ => none)

/-- Model of `JSON.parse`; `none` models a thrown `SyntaxError`. -/
def jsonParse (s : String) : Option JsonValue :=
  jsonRun (2 * s.data.length + 4) [] (.val s.data)

/-- The Unicode replacement character produced by lossy UTF-8 decoding. -/
def replChar : Char := '\uFFFD'

/-- Decode a byte list as UTF-8 with U+FFFD replacement on invalid
sequences (the behaviour of `Buffer.prototype.toString("utf8")`). -/
def utf8DecodeRepl : Nat → List Nat → List Char
  | 0, _ => []
  | _ + 1, [] => []
  | fuel + 1, b :: rest =>
    if b < 0x80 then Char.ofNat b :: utf8DecodeRepl fuel rest
    else if 0xC2 ≤ b ∧ b ≤ 0xDF then
      match rest with
      | b2 :: rest2 =>
        if isCont b2 then
          Char.ofNat ((b - 0xC0) * 64 + (b2 - 0x80)) :: utf8DecodeRepl fuel rest2
        else replChar :: utf8DecodeRepl fuel rest
      | [] => [replChar]
    else if 0xE0 ≤ b ∧ b ≤ 0xEF then
      match rest with
      | b2 :: rest2 =>
        let lo2 := if b = 0xE0 then 0xA0 else 0x80
        let hi2 := if b = 0xED then 0x9F else 0xBF
        if lo2 ≤ b2 ∧ b2 ≤ hi2 then
          match rest2 with
          | b3 :: rest3 =>
            if isCont b3 then
              Char.ofNat ((b - 0xE0) * 4096 + (b2 - 0x80) * 64 + (b3 - 0x80)) ::
                utf8DecodeRepl fuel rest3
            else replChar :: utf8DecodeRepl fuel rest2
          | [] => [replChar]
        else replChar :: utf8DecodeRepl fuel rest
      | [] => [replChar]
    else if 0xF0 ≤ b ∧ b ≤ 0xF4 then
      match rest with
      | b2 :: rest2 =>
        let lo2 := if b = 0xF0 then 0x90 else 0x80
        let hi2 := if b = 0xF4 then 0x8F else 0xBF
        if lo2 ≤ b2 ∧ b2 ≤ hi2 then
          match rest2 with
          | b3 :: rest3 =>
            if isCont b3 then
              match rest3 with
              | b4 :: rest4 =>
                if isCont b4 then
                  Char.ofNat ((b - 0xF0) * 262144 + (b2 - 0x80) * 4096 +
                    (b3 - 0x80) * 64 + (b4 - 0x80)) :: utf8DecodeRepl fuel rest4
                else replChar :: utf8DecodeRepl fuel rest3
              | [] => [replChar]
            else replChar :: utf8DecodeRepl fuel rest2
          | [] => [replChar]
        else replChar :: utf8DecodeRepl fuel rest
      | [] => [replChar]
    else replChar :: utf8DecodeRepl fuel rest

/-- `Buffer.from(s, "hex")`: consecutive hex digit pairs become bytes;
decoding stops at the first invalid pair and a trailing odd digit is
dropped. -/
def hexPairsToBytes : List Char → List Nat
  | c1 :: c2 :: rest =>
    match hexVal? c1, hexVal? c2 with
    | some h1, some h2 => (16 * h1 + h2) :: hexPairsToBytes rest
    | _, _ => []
  | _ => []

/-- UTF-8 encoded length of one character. -/
def utf8Len (c : Char) : Nat :=
  if c.toNat < 0x80 then 1
  else if c.toNat < 0x800 then 2
  else if c.toNat < 0x10000 then 3
  else 4

/-- `Buffer.byteLength(s, "utf8")`. -/
def utf8ByteLength (s : String) : Nat := (s.data.map utf8Len).sum

/-- Remove every JavaScript whitespace character (`replace(/\s/g, "")`). -/
def stripJsSpaces (s : String) : String := ⟨s.data.filter (fun c => !(isJsSpace c))⟩

/-- The regex test `^[0-9A-Fa-f\s]+$` guarding the hex branch of
`decodeXattrValue`. -/
def isHexSpaceOnly (s : String) : Bool :=
  !(s == "") && s.data.all (fun c => (hexVal? c).isSome || isJsSpace c)

/-- The text obtained by hex-decoding the whitespace-stripped raw value
and reading the bytes as UTF-8 with replacement (the `decoded` variable of
the hex branch of `decodeXattrValue`). -/
def hexDecodedText (rawValue : String) : String :=
  let buf := hexPairsToBytes (stripJsSpaces rawValue).data
  ⟨utf8DecodeRepl buf.length buf⟩

/-- The value field of a decoded xattr: a JSON-parsed value or a plain
string. -/
inductive XValue where
  | json (j : JsonValue)
  | str (s : String)

/-- Is the decoded value the result of a successful `JSON.parse`. -/
def XValue.isParsed : XValue → Bool
  | .json _ => true
  | .str _ => false

/-- Decoded xattr value: the value, a size (a JavaScript number, hence
possibly fractional), and an encoding tag string. -/
structure XattrValue where
  value : XValue
  size : ℚ
  encoding : String

/-- `decodeXattrValue` from `xattr-service.ts`.  The `decodePlist`
parameter is accepted and ignored, as in the source.  A raw value of hex
digits and whitespace is stripped and hex-decoded; replacement-free
non-empty UTF-8 text is returned (JSON-parsed when possible) tagged
`utf8`, otherwise the stripped hex digits are returned tagged `hex` with
size `digits/2`.  Non-hex raw values are JSON-parsed or returned verbatim,
tagged `utf8`. -/
def decodeXattrValue (rawValue : String) (decodePlist : Bool) : XattrValue :=
  if isHexSpaceOnly rawValue then
    let bytes := stripJsSpaces rawValue
    let buf := hexPairsToBytes bytes.data
    let decoded : String := hexDecodedText rawValue
    if !(decoded == "") && !(decoded.data.contains replChar) then
      match jsonParse decoded with
      | some parsed => ⟨.json parsed, (buf.length : ℚ), "utf8"⟩
      | none => ⟨.str decoded, (buf.length : ℚ), "utf8"⟩
    else ⟨.str bytes, (bytes.length : ℚ) / 2, "hex"⟩
  else
    match jsonParse rawValue with
    | some parsed => ⟨.json parsed, (utf8ByteLength rawValue : ℚ), "utf8"⟩
    | none => ⟨.str rawValue, (utf8ByteLength rawValue : ℚ), "utf8"⟩

/-- Characters matched by the regex class `[\w\-._]` of the path pattern
in `sanitizeErrorMessage`. -/
def isPathChar (c : Char) : Bool :=
  ('a' ≤ c && c ≤ 'z') || ('A' ≤ c && c ≤ 'Z') || ('0' ≤ c && c ≤ '9') ||
  c = '_' || c = '-' || c = '.'

/-- Match the first alternative `(?:\/[\w\-._]+)+` of the path regex at
the current position: one or more groups of a slash followed by path
characters, greedily.  Returns the input after the match. -/
def matchAbsPath : Nat → List Char → Option (List Char)
  | 0, _ => none
  | fuel + 1, l =>
    match l with
    | '/' :: c :: rest =>
      if isPathChar c then
        let rest2 := (c :: rest).dropWhile isPathChar
        match matchAbsPath fuel rest2 with
        | some r => some r
        | none => some rest2
      else none
    | _ => none

/-- Match the second alternative `\.\.?\/[\w\-._/]*` of the path regex at
the current position. -/
def matchRelPath (l : List Char) : Option (List Char) :=
  match l with
  | '.' :: '.' :: '/' :: rest => some (rest.dropWhile fun c => isPathChar c || c = '/')
  | '.' :: '/' :: rest => some (rest.dropWhile fun c => isPathChar c || c = '/')
  | _ => none

/-- The replacement token used by `sanitizeErrorMessage`. -/
def pathTok : List Char := ['[', 'p', 'a', 't', 'h', ']']

/-- Global replacement of every path-shaped substring with `[path]`
(the first `replace` of `sanitizeErrorMessage`). -/
def replacePaths : Nat → List Char → List Char
  | 0, l => l
  | _ + 1, [] => []
  | fuel + 1, c :: rest =>
    match matchAbsPath (c :: rest).length (c :: rest) with
    | some r => pathTok ++ replacePaths fuel r
    | none =>
      match matchRelPath (c :: rest) with
      | some r => pathTok ++ replacePaths fuel r
      | none => c :: replacePaths fuel rest

/-- Global removal of `:\s*\[path\]` fragments (the second `replace` of
`sanitizeErrorMessage`). -/
def collapseLabels : Nat → List Char → List Char
  | 0, l => l
  | _ + 1, [] => []
  | fuel + 1, c :: rest =>
    if c = ':' then
      let ws := rest.dropWhile isJsSpace
      if List.isPrefixOf pathTok ws then collapseLabels fuel (ws.drop pathTok.length)
      else c :: collapseLabels fuel rest
    else c :: collapseLabels fuel rest

/-- `sanitizeErrorMessage` from `path-validator.ts`: non-string or empty
input becomes a fixed placeholder; otherwise every path-shaped substring is
replaced by `[path]` and dangling `: [path]` fragments are collapsed. -/
def sanitizeErrorMessage (message : String) : String :=
  if message = "" then "Unknown error"
  else
    let replaced := replacePaths message.data.length message.data
    ⟨collapseLabels replaced.length replaced⟩

/-- Contiguous-subsequence (substring) check on character lists, the model
of `String.prototype.includes`. -/
def containsSeq (pat : List Char) : List Char → Bool
  | [] => pat.isEmpty
  | c :: rest => List.isPrefixOf pat (c :: rest) || containsSeq pat rest

/-- The error path of `listXattrs` in `xattr-service.ts` (its catch
block): a tool message reporting a missing xattr becomes an empty success
(`none`); any other failure message is rethrown with a `Failed to list
xattrs` prefix, with no sanitization. -/
def listXattrsFailure (message : String) : Option String :=
  if containsSeq "No such xattr".data message.data then none
  else some ("Failed to list xattrs: " ++ message)

/-- The error path of `spotlightSearch` in `spotlight-service.ts`: the
tool message is passed through `sanitizeErrorMessage` before being
rethrown. -/
def spotlightSearchFailure (message : String) : String :=
  "Spotlight search failed: " ++ sanitizeErrorMessage message

/-- A sample external-tool failure message containing a sandbox-external
path, as in the spec's sanitizer example. -/
def sampleToolError : String :=
  "ENOENT: no such file or directory, open /secret/file.txt"

/-- C7: `parseSpotlightValue` implements the literal mdls grammar:
`(null)` is null, a parenthesised comma-separated list of quoted names is
a string list, a quoted value is the unwrapped string, a fully numeric
value is a number, and a value with trailing non-numeric text stays a
string. -/
theorem parseSpotlightValue_literal_grammar :
    parseSpotlightValue "(null)" = .null ∧
    parseSpotlightValue "(\"Red\", \"Blue\")" = .list ["Red", "Blue"] ∧
    parseSpotlightValue "\"hello\"" = .str "hello" ∧
    parseSpotlightValue "42" = .num (.finite 42) ∧
    parseSpotlightValue "42abc" = .str "42abc" := by
  refine ⟨by decide, by decide, by decide, ?_, by decide⟩
  decide

/-- C3 counterexample: the decoding loop of `validatePath` is not bounded
by ten rounds — a 13-fold nested percent encoding of `.` drives it through
fourteen `decodeURIComponent` calls. -/
theorem decodeRounds_exceeds_ten :
    10 < decodeRounds "%2525252525252525252525252e" := by decide

/-- C5 (code bug): an input containing a null character is accepted by
`validatePath`, yet the returned path still contains a null character,
because `%00` is percent-decoded back into a null after the null-stripping
step.  Evaluated with the identity NFC (the input is ASCII) and no
symlinks. -/
theorem validatePath_null_reintroduced :
    validatePath id (fun _ => false) "/" ALLOWED_ROOTS
        "/Users/macbook/Documents/Dropository/\x00a%00b" =
      .ok "/Users/macbook/Documents/Dropository/a\x00b" ∧
    ("/Users/macbook/Documents/Dropository/\x00a%00b").data.contains '\x00' = true ∧
    ("/Users/macbook/Documents/Dropository/a\x00b").data.contains '\x00' = true := by
  exact ⟨rfl, by decide, by decide⟩

/-- C4 counterexample: `validate(validate(p)) = validate(p)` fails.  On
this input the first pass keeps a literal `%2e` segment (the decode loop
aborts on the malformed trailing `%` escape, and `..` then deletes the
malformed segment but not the `%2e` one), so re-validating the accepted
output decodes `%2e` to `.` and returns a different path. -/
theorem validatePath_revalidate_differs :
    validatePath id (fun _ => false) "/" ALLOWED_ROOTS
        "/Users/macbook/Documents/Dropository/%2e/x%/../f" =
      .ok "/Users/macbook/Documents/Dropository/%2e/f" ∧
    validatePath id (fun _ => false) "/" ALLOWED_ROOTS
        "/Users/macbook/Documents/Dropository/%2e/f" =
      .ok "/Users/macbook/Documents/Dropository/f" ∧
    "/Users/macbook/Documents/Dropository/%2e/f" ≠
      "/Users/macbook/Documents/Dropository/f" := by
  exact ⟨rfl, rfl, by decide⟩

/-- C2 (code bug): the failure message thrown by `listXattrs` is the raw
external-tool message, not sanitized — it still contains the path-shaped
substring that `sanitizeErrorMessage` would have replaced (and that
`spotlightSearch`, which does sanitize, removes). -/
theorem listXattrs_error_unsanitized :
    listXattrsFailure sampleToolError =
      some ("Failed to list xattrs: " ++ sampleToolError) ∧
    containsSeq "/secret/file.txt".data
      ("Failed to list xattrs: " ++ sampleToolError).data = true ∧
    containsSeq "/secret/file.txt".data
      (sanitizeErrorMessage sampleToolError).data = false ∧
    containsSeq "/secret/file.txt".data
      (spotlightSearchFailure sampleToolError).data = false := by
  exact ⟨rfl, by decide, by decide, by decide⟩

/-- C8 counterexample: a hex-encoded value whose bytes decode to valid
JSON text is returned with the parsed value but tagged `utf8`, not
`json`. -/
theorem decodeXattrValue_json_tagged_utf8 :
    (decodeXattrValue "7b7d" true).encoding = "utf8" ∧
    (decodeXattrValue "7b7d" true).encoding ≠ "json" ∧
    (decodeXattrValue "7b7d" true).value.isParsed = true := by
  exact ⟨rfl, by decide, rfl⟩

/-- C6: `sanitizeAttributes` returns an order-preserving subsequence of
its input; every retained element matches the identifier grammar and is
non-empty; every dropped element is empty or grammar-violating; and the
spec's example evaluates as stated. -/
theorem sanitizeAttributes_subsequence_grammar (attrs : List String) :
    List.Sublist (sanitizeAttributes attrs) attrs ∧
    (∀ a, a ∈ sanitizeAttributes attrs → matchesAttrPattern a = true ∧ a ≠ "") ∧
    (∀ a, a ∈ attrs → a ∉ sanitizeAttributes attrs →
      a = "" ∨ matchesAttrPattern a = false) ∧
    sanitizeAttributes ["kMDItemDisplayName", "kMDItem; rm -rf /", "_ok1"] =
      ["kMDItemDisplayName", "_ok1"] := by
  refine ⟨List.filter_sublist _, ?_, ?_, by decide⟩
  · intro a ha
    rw [sanitizeAttributes, List.mem_filter] at ha
    obtain ⟨-, hp⟩ := ha
    rw [Bool.and_eq_true] at hp
    obtain ⟨-, hm⟩ := hp
    refine ⟨hm, ?_⟩
    intro h
    subst h
    exact absurd hm (by decide)
  · intro a ha hnot
    by_contra hc
    push_neg at hc
    obtain ⟨hne, hm⟩ := hc
    apply hnot
    rw [sanitizeAttributes, List.mem_filter]
    refine ⟨ha, ?_⟩
    rw [Bool.and_eq_true]
    refine ⟨?_, ?_⟩
    · simpa using hne
    · simpa using hm

/-- C6 witness: the retained-element guarantee applied to the concrete
token `_ok1` of the spec's example. -/
theorem sanitizeAttributes_subsequence_grammar_witness :
    matchesAttrPattern "_ok1" = true ∧ "_ok1" ≠ "" :=
  (sanitizeAttributes_subsequence_grammar
    ["kMDItemDisplayName", "kMDItem; rm -rf /", "_ok1"]).2.1 "_ok1" (by decide)

/-- C1: whenever `validatePath` succeeds, the returned path passes the
sandbox gate (it equals a normalized root or extends one by the
separator); and whenever the fully normalized resolution of a non-empty
input lies outside every root (and is not an existing symlink, which would
fail earlier with `symlinkRejected`), `validatePath` fails with
`outsideSandbox`. -/
theorem validatePath_sandbox_gate (nfc : String → String) (isSym : String → Bool)
    (cwd : String) (roots : List String) (p out : String) :
    (validatePath nfc isSym cwd roots p = .ok out → sandboxOk roots out = true) ∧
    (p ≠ "" → isSym (normalizedOf nfc cwd p) = false →
      sandboxOk roots (normalizedOf nfc cwd p) = false →
      validatePath nfc isSym cwd roots p = .error .outsideSandbox) := by
  constructor
  · intro h
    simp only [validatePath] at h
    split at h
    · exact absurd h (by simp)
    · split at h
      · exact absurd h (by simp)
      · split at h
        · rename_i hbox
          obtain rfl : normalizedOf nfc cwd p = out := by injection h
          exact hbox
        · exact absurd h (by simp)
  · intro hne hsym hbox
    simp only [validatePath, if_neg hne, hsym, hbox, Bool.false_eq_true, if_false]

/-- C1 witness: the spec's concrete traversal example, with `/root/allowed`
as the only sandbox root, no symlinks, root working directory and identity
NFC (the input is ASCII). -/
theorem validatePath_sandbox_gate_witness :
    validatePath id (fun _ => false) "/" ["/root/allowed"]
      "/root/allowed/../../../etc/passwd" = .error .outsideSandbox :=
  (validatePath_sandbox_gate id (fun _ => false) "/" ["/root/allowed"]
    "/root/allowed/../../../etc/passwd" "").2 (by decide) rfl (by decide)

/-- C10: `parseSpotlightValue` maps the empty string, and every string of
JavaScript whitespace, to the number 0, because `Number` treats the
trimmed-to-empty string as 0. -/
theorem parseSpotlightValue_whitespace_is_zero :
    parseSpotlightValue "" = .num (.finite 0) ∧
    ∀ s : String, s.data.all isJsSpace = true →
      parseSpotlightValue s = .num (.finite 0) := by
  refine ⟨by decide, ?_⟩
  intro s hs
  have htrim : jsTrimList s.data = [] := by
    have hd : s.data.dropWhile isJsSpace = [] :=
      List.dropWhile_eq_nil_iff.mpr (fun x hx => by
        simpa using List.all_eq_true.mp hs x hx)
    rw [jsTrimList, hd]
    rfl
  have hnum : jsStringToNumber s = some (.finite 0) := by
    rw [jsStringToNumber]
    simp only [htrim]
    rfl
  rcases hdata : s.data with _ | ⟨c, cs⟩
  · have hses : s = "" := by
      cases s
      simp_all
    rw [hses]
    decide
  · have hc : isJsSpace c = true := by
      have := List.all_eq_true.mp hs c
      rw [hdata] at this
      exact this (by simp)
    have hcne : ∀ d : Char, isJsSpace d = false → c ≠ d := by
      intro d hd heq
      rw [heq, hd] at hc
      exact Bool.false_ne_true hc
    have hA : ¬ (s = "(null)") := by
      intro heq
      have hdd : s.data = "(null)".data := by rw [heq]
      rw [hdata] at hdd
      have h2 : some c = List.head? "(null)".data := congrArg List.head? hdd
      rw [show List.head? "(null)".data = some '(' from rfl] at h2
      exact hcne '(' (by decide) (Option.some.inj h2)
    have hB : ¬ (s.data.head? = some '(' ∧ s.data.getLast? = some ')') := by
      intro hcond
      have := hcond.1
      rw [hdata] at this
      simp at this
      exact hcne '(' (by decide) this
    have hC : ¬ (s.data.head? = some '"' ∧ s.data.getLast? = some '"') := by
      intro hcond
      have := hcond.1
      rw [hdata] at this
      simp at this
      exact hcne '"' (by decide) this
    rw [parseSpotlightValue, if_neg hA, if_neg hB, if_neg hC, hnum]

/-- C8 amended: for every raw value of hex digits and whitespace, if the
decoded bytes form non-empty replacement-free text the result is tagged
`utf8` (whether or not the text parses as JSON) with size the byte count;
otherwise the whitespace-stripped hex digits are returned tagged `hex`
with size half the digit count; the tag `json` is never produced. -/
theorem decodeXattrValue_hex_branch (raw : String) (dp : Bool)
    (h : isHexSpaceOnly raw = true) :
    (hexDecodedText raw ≠ "" →
      (hexDecodedText raw).data.contains replChar = false →
      (decodeXattrValue raw dp).encoding = "utf8" ∧
      (decodeXattrValue raw dp).size =
        ((hexPairsToBytes (stripJsSpaces raw).data).length : ℚ)) ∧
    ((hexDecodedText raw = "" ∨
      (hexDecodedText raw).data.contains replChar = true) →
      decodeXattrValue raw dp =
        ⟨.str (stripJsSpaces raw), ((stripJsSpaces raw).length : ℚ) / 2, "hex"⟩) ∧
    (decodeXattrValue raw dp).encoding ≠ "json" := by
  have hval : decodeXattrValue raw dp =
      (if !(hexDecodedText raw == "") && !((hexDecodedText raw).data.contains replChar) then
        match jsonParse (hexDecodedText raw) with
        | some parsed =>
          ⟨.json parsed, ((hexPairsToBytes (stripJsSpaces raw).data).length : ℚ), "utf8"⟩
        | none =>
          ⟨.str (hexDecodedText raw),
            ((hexPairsToBytes (stripJsSpaces raw).data).length : ℚ), "utf8"⟩
      else ⟨.str (stripJsSpaces raw), ((stripJsSpaces raw).length : ℚ) / 2, "hex"⟩) := by
    rw [decodeXattrValue, if_pos h]
  by_cases hok : hexDecodedText raw ≠ "" ∧
      (hexDecodedText raw).data.contains replChar = false
  · have hbt : (!(hexDecodedText raw == "") &&
        !((hexDecodedText raw).data.contains replChar)) = true := by
      simp only [Bool.and_eq_true, Bool.not_eq_true']
      refine ⟨?_, hok.2⟩
      simpa using hok.1
    rw [if_pos hbt] at hval
    refine ⟨fun _ _ => ?_, fun hc => ?_, ?_⟩
    · cases hp : jsonParse (hexDecodedText raw) <;> rw [hp] at hval <;> rw [hval] <;>
        exact ⟨rfl, rfl⟩
    · rcases hc with hc | hc
      · exact absurd hc hok.1
      · rw [hok.2] at hc
        exact absurd hc (by decide)
    · cases hp : jsonParse (hexDecodedText raw) <;> rw [hp] at hval <;> rw [hval] <;>
        exact show ("utf8" : String) ≠ "json" by decide
  · have hbt : (!(hexDecodedText raw == "") &&
        !((hexDecodedText raw).data.contains replChar)) = false := by
      rcases hb : (!(hexDecodedText raw == "") &&
          !((hexDecodedText raw).data.contains replChar)) with _ | _
      · rfl
      · refine absurd ?_ hok
        simp only [Bool.and_eq_true, Bool.not_eq_true'] at hb
        exact ⟨by simpa using hb.1, hb.2⟩
    rw [hbt] at hval
    simp only [Bool.false_eq_true, if_false] at hval
    refine ⟨fun h1 h2 => absurd ⟨h1, h2⟩ hok, fun _ => hval, ?_⟩
    rw [hval]
    exact show ("hex" : String) ≠ "json" by decide

/-- C8 amended witness: the single byte `0xFF` is invalid UTF-8, so the
hex fallback is taken: stripped hex digits, tag `hex`. -/
theorem decodeXattrValue_hex_branch_witness :
    decodeXattrValue "ff" true =
      ⟨.str (stripJsSpaces "ff"), ((stripJsSpaces "ff").length : ℚ) / 2, "hex"⟩ :=
  (decodeXattrValue_hex_branch "ff" true (by decide)).2.1 (Or.inr (by decide))

/-- C9: an odd-length hex value whose truncated byte decoding is not
replacement-free text is not rejected: `decodeXattrValue` returns the
whitespace-stripped hex digits tagged `hex` with size half the digit
count, a non-integer. -/
theorem decodeXattrValue_odd_hex_size (raw : String) (dp : Bool)
    (h1 : isHexSpaceOnly raw = true)
    (h2 : (stripJsSpaces raw).length % 2 = 1)
    (h3 : hexDecodedText raw = "" ∨
      (hexDecodedText raw).data.contains replChar = true) :
    decodeXattrValue raw dp =
      ⟨.str (stripJsSpaces raw), ((stripJsSpaces raw).length : ℚ) / 2, "hex"⟩ ∧
    ∀ z : ℤ, ((stripJsSpaces raw).length : ℚ) / 2 ≠ (z : ℚ) := by
  constructor
  · exact (decodeXattrValue_hex_branch raw dp h1).2.1 h3
  · intro z hz
    set L := (stripJsSpaces raw).length with hL
    have hq : (L : ℚ) = 2 * (z : ℚ) := by
      field_simp at hz
      linarith [hz]
    have hint : (L : ℤ) = 2 * z := by exact_mod_cast hq
    omega

/-- C9 witness: `abc` is three hex digits; the truncated decoding is the
single invalid byte `0xAB`, so the hex fallback with fractional size 3/2
is returned. -/
theorem decodeXattrValue_odd_hex_size_witness :
    decodeXattrValue "abc" false =
      ⟨.str (stripJsSpaces "abc"), ((stripJsSpaces "abc").length : ℚ) / 2, "hex"⟩ :=
  (decodeXattrValue_odd_hex_size "abc" false (by decide) (by decide)
    (Or.inr (by decide))).1

theorem readPct_length {l : List Char} {b : Nat} {r : List Char}
    (h : readPct l = some (b, r)) : l.length = r.length + 3 := by
  match l with
  | [] => simp [readPct] at h
  | [c0] => simp [readPct] at h
  | [c0, c1] => simp [readPct] at h
  | c0 :: c1 :: c2 :: rest =>
    rw [readPct] at h
    split at h
    · split at h
      · simp only [Option.some.injEq, Prod.mk.injEq] at h
        obtain ⟨-, rfl⟩ := h
        simp
      · exact absurd h (by simp)
    · exact absurd h (by simp)

theorem readEscape_length {l : List Char} {ch : Char} {r : List Char}
    (h : readEscape l = some (ch, r)) : r.length + 3 ≤ l.length := by
  rw [readEscape, Option.bind_eq_some] at h
  obtain ⟨⟨b1, r1⟩, hp1, h⟩ := h
  dsimp only [] at h
  have e1 := readPct_length hp1
  split at h
  · simp only [Option.some.injEq, Prod.mk.injEq] at h
    obtain ⟨-, rfl⟩ := h
    omega
  · split at h
    · rw [Option.bind_eq_some] at h
      obtain ⟨⟨b2, r2⟩, hp2, h⟩ := h
      dsimp only [] at h
      have e2 := readPct_length hp2
      split at h
      · split at h
        · simp only [Option.some.injEq, Prod.mk.injEq] at h
          obtain ⟨-, rfl⟩ := h
          omega
        · exact absurd h (by simp)
      · exact absurd h (by simp)
    · split at h
      · rw [Option.bind_eq_some] at h
        obtain ⟨⟨b2, r2⟩, hp2, h⟩ := h
        dsimp only [] at h
        rw [Option.bind_eq_some] at h
        obtain ⟨⟨b3, r3⟩, hp3, h⟩ := h
        dsimp only [] at h
        have e2 := readPct_length hp2
        have e3 := readPct_length hp3
        split at h
        · split at h
          · simp only [Option.some.injEq, Prod.mk.injEq] at h
            obtain ⟨-, rfl⟩ := h
            omega
          · exact absurd h (by simp)
        · exact absurd h (by simp)
      · split at h
        · rw [Option.bind_eq_some] at h
          obtain ⟨⟨b2, r2⟩, hp2, h⟩ := h
          dsimp only [] at h
          rw [Option.bind_eq_some] at h
          obtain ⟨⟨b3, r3⟩, hp3, h⟩ := h
          dsimp only [] at h
          rw [Option.bind_eq_some] at h
          obtain ⟨⟨b4, r4⟩, hp4, h⟩ := h
          dsimp only [] at h
          have e2 := readPct_length hp2
          have e3 := readPct_length hp3
          have e4 := readPct_length hp4
          split at h
          · split at h
            · simp only [Option.some.injEq, Prod.mk.injEq] at h
              obtain ⟨-, rfl⟩ := h
              omega
            · exact absurd h (by simp)
          · exact absurd h (by simp)
        · exact absurd h (by simp)

theorem decodeAux_length : ∀ (fuel : Nat) (cs out : List Char),
    decodeAux fuel cs = some out →
    out.length ≤ cs.length ∧ (out.length = cs.length → out = cs) := by
  intro fuel
  induction fuel with
  | zero =>
    intro cs out h
    cases cs with
    | nil =>
      simp only [decodeAux, Option.some.injEq] at h
      subst h
      exact ⟨le_refl _, fun _ => rfl⟩
    | cons c rest => simp [decodeAux] at h
  | succ fuel ih =>
    intro cs out h
    cases cs with
    | nil =>
      simp only [decodeAux, Option.some.injEq] at h
      subst h
      exact ⟨le_refl _, fun _ => rfl⟩
    | cons c rest =>
      rw [decodeAux] at h
      split at h
      · rcases he : readEscape (c :: rest) with _ | ⟨ch, r⟩ <;> rw [he] at h
        · exact absurd h (by simp)
        · simp only [Option.map_eq_some'] at h
          obtain ⟨t, ht, rfl⟩ := h
          have hlen := readEscape_length he
          have iht := ih r t ht
          simp only [List.length_cons] at hlen ⊢
          constructor
          · omega
          · intro hl
            omega
      · simp only [Option.map_eq_some'] at h
        obtain ⟨t, ht, rfl⟩ := h
        have iht := ih rest t ht
        simp only [List.length_cons]
        constructor
        · omega
        · intro hl
          have : t = rest := iht.2 (by omega)
          rw [this]

theorem jsDecode_shorter {d d2 : String}
    (h : jsDecodeURIComponent d = some d2) (hne : d2 ≠ d) :
    d2.length < d.length := by
  rw [jsDecodeURIComponent, Option.map_eq_some'] at h
  obtain ⟨out, hout, rfl⟩ := h
  have hl := decodeAux_length _ _ _ hout
  by_contra hnlt
  push_neg at hnlt
  have heq : out.length = d.data.length := le_antisymm hl.1 hnlt
  have hod : out = d.data := hl.2 heq
  apply hne
  cases d
  rw [hod]

theorem decodeFixAux_rounds : ∀ (fuel : Nat) (prev d : String),
    (decodeFixAux fuel prev d).2 ≤ d.length + 1 := by
  intro fuel
  induction fuel with
  | zero => intro prev d; simp [decodeFixAux]
  | succ fuel ih =>
    intro prev d
    rw [decodeFixAux]
    split
    · simp
    · rcases hd : jsDecodeURIComponent d with _ | d2
      · show (1 : Nat) ≤ d.length + 1
        omega
      · show (decodeFixAux fuel d d2).2 + 1 ≤ d.length + 1
        by_cases he : d2 = d
        · subst he
          have h0 : (decodeFixAux fuel d2 d2).2 = 0 := by
            cases fuel with
            | zero => rfl
            | succ f => rw [decodeFixAux, if_pos rfl]
          omega
        · have hlt := jsDecode_shorter hd he
          have hih := ih d d2
          omega

theorem decodeFixAux_fixpoint : ∀ (fuel : Nat) (prev d : String),
    d.length + 2 ≤ fuel → d ≠ prev →
    jsDecodeURIComponent (decodeFixAux fuel prev d).1 = none ∨
    jsDecodeURIComponent (decodeFixAux fuel prev d).1 =
      some (decodeFixAux fuel prev d).1 := by
  intro fuel
  induction fuel with
  | zero => intro prev d hf; omega
  | succ fuel ih =>
    intro prev d hf hne
    rw [decodeFixAux, if_neg hne]
    rcases hd : jsDecodeURIComponent d with _ | d2
    · exact Or.inl hd
    · show jsDecodeURIComponent (decodeFixAux fuel d d2).1 = none ∨
        jsDecodeURIComponent (decodeFixAux fuel d d2).1 = some (decodeFixAux fuel d d2).1
      by_cases he : d2 = d
      · subst he
        have h1 : (decodeFixAux fuel d2 d2).1 = d2 := by
          cases fuel with
          | zero => rfl
          | succ f => rw [decodeFixAux, if_pos rfl]
        rw [h1]
        exact Or.inr hd
      · have hlt := jsDecode_shorter hd he
        exact ih d d2 (by omega) he

/-- C3 amended: the decoding loop of `validatePath` terminates on every
input, but its round count is only bounded by the input length plus one
(each productive round strictly shortens the string), not by any fixed
constant; the loop result is a decoding fixed point or a point where
decoding errors (keeping the last successful decode). -/
theorem decodeLoop_round_bound (s : String) :
    decodeRounds s ≤ s.length + 1 ∧
    (jsDecodeURIComponent (decodeLoop s) = none ∨
     jsDecodeURIComponent (decodeLoop s) = some (decodeLoop s)) := by
  refine ⟨decodeFixAux_rounds _ _ _, ?_⟩
  by_cases hs : s = ""
  · subst hs
    right
    decide
  · exact decodeFixAux_fixpoint (s.length + 2) "" s (le_refl _) hs

/-- A path segment produced by full lexical normalization: non-empty, not a
dot segment, and free of separators. -/
def goodSeg (s : List Char) : Prop :=
  s ≠ [] ∧ s ≠ ['.'] ∧ s ≠ ['.', '.'] ∧ '/' ∉ s

theorem getLast?_mem_list : ∀ (l : List Char) (a : Char), l.getLast? = some a → a ∈ l := by
  intro l
  induction l with
  | nil => intro a h; exact absurd h (by simp)
  | cons c rest ih =>
    intro a h
    cases rest with
    | nil =>
      simp only [List.getLast?_singleton, Option.some.injEq] at h
      subst h
      exact List.mem_cons_self _ _
    | cons c2 r2 =>
      rw [List.getLast?_cons_cons] at h
      exact List.mem_cons_of_mem _ (ih a h)

theorem splitSlash_no_slash : ∀ (l : List Char), ∀ s ∈ splitSlash l, '/' ∉ s := by
  intro l
  induction l with
  | nil =>
    intro s hs
    simp only [splitSlash, List.mem_singleton] at hs
    subst hs
    simp
  | cons c rest ih =>
    intro s hs
    rw [splitSlash] at hs
    split at hs
    · rcases List.mem_cons.mp hs with rfl | hs2
      · simp
      · exact ih s hs2
    · rename_i hc
      rcases hsp : splitSlash rest with _ | ⟨t, ts⟩ <;> rw [hsp] at hs
      · simp only [List.mem_singleton] at hs
        subst hs
        intro hm
        rcases List.mem_singleton.mp hm with heq
        exact hc heq.symm
      · rcases List.mem_cons.mp hs with rfl | hs2
        · intro hmem
          rcases List.mem_cons.mp hmem with heq | hmem2
          · exact hc heq.symm
          · exact ih t (by rw [hsp]; exact List.mem_cons_self _ _) hmem2
        · exact ih s (by rw [hsp]; exact List.mem_cons_of_mem _ hs2)

theorem splitSlash_of_no_slash : ∀ (s : List Char), '/' ∉ s → splitSlash s = [s] := by
  intro s
  induction s with
  | nil => intro _; rfl
  | cons c rest ih =>
    intro h
    have hc : ¬ (c = '/') := fun hcc => h (by rw [hcc]; exact List.mem_cons_self _ _)
    rw [splitSlash, if_neg hc, ih (fun hm => h (List.mem_cons_of_mem _ hm))]

theorem splitSlash_append : ∀ (s t : List Char), '/' ∉ s →
    splitSlash (s ++ '/' :: t) = s :: splitSlash t := by
  intro s
  induction s with
  | nil =>
    intro t _
    show splitSlash ('/' :: t) = [] :: splitSlash t
    rw [splitSlash, if_pos rfl]
  | cons c s ih =>
    intro t h
    have hc : ¬ (c = '/') := fun hcc => h (by rw [hcc]; exact List.mem_cons_self _ _)
    show splitSlash (c :: (s ++ '/' :: t)) = (c :: s) :: splitSlash t
    rw [splitSlash, if_neg hc, ih t (fun hm => h (List.mem_cons_of_mem _ hm))]

theorem splitSlash_joinSegs : ∀ (segs : List (List Char)), segs ≠ [] →
    (∀ s ∈ segs, '/' ∉ s) → splitSlash (joinSegs segs) = segs := by
  intro segs
  induction segs with
  | nil => intro h; exact absurd rfl h
  | cons s rest ih =>
    intro _ hns
    cases rest with
    | nil =>
      show splitSlash s = [s]
      exact splitSlash_of_no_slash s (hns s (List.mem_cons_self _ _))
    | cons s2 rest2 =>
      show splitSlash (s ++ '/' :: joinSegs (s2 :: rest2)) = s :: s2 :: rest2
      rw [splitSlash_append s _ (hns s (List.mem_cons_self _ _)),
        ih (by simp) (fun x hx => hns x (List.mem_cons_of_mem _ hx))]

theorem collapseAbsAux_of_good : ∀ (segs acc : List (List Char)),
    (∀ s ∈ segs, goodSeg s) → collapseAbsAux acc segs = acc ++ segs := by
  intro segs
  induction segs with
  | nil =>
    intro acc _
    rw [collapseAbsAux, List.append_nil]
  | cons seg rest ih =>
    intro acc hg
    have h1 := hg seg (List.mem_cons_self _ _)
    have hA : ¬ (seg = [] ∨ seg = ['.']) := by
      rintro (h | h)
      · exact h1.1 h
      · exact h1.2.1 h
    rw [collapseAbsAux, if_neg hA, if_neg h1.2.2.1,
      ih (acc ++ [seg]) (fun x hx => hg x (List.mem_cons_of_mem _ hx))]
    simp

theorem collapseAbsAux_good_out : ∀ (segs acc : List (List Char)),
    (∀ s ∈ acc, goodSeg s) → (∀ s ∈ segs, '/' ∉ s) →
    ∀ s ∈ collapseAbsAux acc segs, goodSeg s := by
  intro segs
  induction segs with
  | nil =>
    intro acc hacc _
    rw [collapseAbsAux]
    exact hacc
  | cons seg rest ih =>
    intro acc hacc hns
    rw [collapseAbsAux]
    split
    · exact ih acc hacc (fun x hx => hns x (List.mem_cons_of_mem _ hx))
    · split
      · refine ih acc.dropLast (fun x hx => hacc x ?_)
          (fun x hx => hns x (List.mem_cons_of_mem _ hx))
        exact (List.dropLast_sublist acc).subset hx
      · rename_i hA hB
        refine ih (acc ++ [seg]) ?_ (fun x hx => hns x (List.mem_cons_of_mem _ hx))
        intro x hx
        rcases List.mem_append.mp hx with hx | hx
        · exact hacc x hx
        · have hxe : x = seg := List.mem_singleton.mp hx
          subst hxe
          exact ⟨fun hh => hA (Or.inl hh), fun hh => hA (Or.inr hh), hB,
            hns x (List.mem_cons_self _ _)⟩

theorem joinSegs_ne_nil : ∀ (segs : List (List Char)), segs ≠ [] →
    (∀ s ∈ segs, s ≠ []) → joinSegs segs ≠ [] := by
  intro segs
  cases segs with
  | nil => intro h; exact absurd rfl h
  | cons s rest =>
    intro _ hg
    cases rest with
    | nil =>
      show s ≠ []
      exact hg s (List.mem_cons_self _ _)
    | cons s2 r2 =>
      show s ++ '/' :: joinSegs (s2 :: r2) ≠ []
      simp

theorem joinSegs_getLast_ne_slash : ∀ (segs : List (List Char)), segs ≠ [] →
    (∀ s ∈ segs, goodSeg s) → (joinSegs segs).getLast? ≠ some '/' := by
  intro segs
  induction segs with
  | nil => intro h; exact absurd rfl h
  | cons s rest ih =>
    intro _ hg
    cases rest with
    | nil =>
      show s.getLast? ≠ some '/'
      intro h
      exact (hg s (List.mem_cons_self _ _)).2.2.2 (getLast?_mem_list s '/' h)
    | cons s2 r2 =>
      show (s ++ '/' :: joinSegs (s2 :: r2)).getLast? ≠ some '/'
      rw [List.getLast?_append_cons]
      have hne : joinSegs (s2 :: r2) ≠ [] :=
        joinSegs_ne_nil _ (by simp) (fun x hx => (hg x (List.mem_cons_of_mem _ hx)).1)
      rw [show ('/' :: joinSegs (s2 :: r2)) = ['/'] ++ joinSegs (s2 :: r2) from rfl,
        List.getLast?_append_of_ne_nil _ hne]
      exact ih (by simp) (fun x hx => hg x (List.mem_cons_of_mem _ hx))

theorem collapse_split_abs (segs : List (List Char)) (hg : ∀ s ∈ segs, goodSeg s) :
    collapseAbs (splitSlash ('/' :: joinSegs segs)) = segs := by
  rcases segs with _ | ⟨s, rest⟩
  · rfl
  · have hsplit : splitSlash ('/' :: joinSegs (s :: rest)) = [] :: s :: rest := by
      have h1 : splitSlash ('/' :: joinSegs (s :: rest)) =
          [] :: splitSlash (joinSegs (s :: rest)) := by
        rw [splitSlash, if_pos rfl]
      rw [h1, splitSlash_joinSegs (s :: rest) (by simp) (fun x hx => (hg x hx).2.2.2)]
    rw [hsplit]
    show collapseAbsAux [] ([] :: s :: rest) = s :: rest
    rw [collapseAbsAux, if_pos (Or.inl rfl),
      collapseAbsAux_of_good (s :: rest) [] hg]
    rfl

theorem resolveChars_fixed (cwd : List Char) (segs : List (List Char))
    (hg : ∀ s ∈ segs, goodSeg s) :
    resolveChars cwd ('/' :: joinSegs segs) = '/' :: joinSegs segs := by
  rw [resolveChars, if_pos (show ('/' :: joinSegs segs).head? = some '/' from rfl),
    collapse_split_abs segs hg]

theorem normChars_fixed (segs : List (List Char)) (hg : ∀ s ∈ segs, goodSeg s) :
    normChars ('/' :: joinSegs segs) = '/' :: joinSegs segs := by
  rcases segs with _ | ⟨s, rest⟩
  · rfl
  · have htr : ¬ (('/' :: joinSegs (s :: rest)).getLast? = some '/') := by
      have hne : joinSegs (s :: rest) ≠ [] :=
        joinSegs_ne_nil _ (by simp) (fun x hx => (hg x hx).1)
      rw [show ('/' :: joinSegs (s :: rest)) = ['/'] ++ joinSegs (s :: rest) from rfl,
        List.getLast?_append_of_ne_nil _ hne]
      exact joinSegs_getLast_ne_slash (s :: rest) (by simp) hg
    rw [normChars, if_neg (by simp),
      if_pos (show ('/' :: joinSegs (s :: rest)).head? = some '/' from rfl),
      collapse_split_abs (s :: rest) hg,
      if_neg (joinSegs_ne_nil (s :: rest) (by simp) (fun x hx => (hg x hx).1)),
      if_neg htr]
    simp

theorem normalizedOf_shape (nfc : String → String) (cwd p : String) :
    ∃ segs : List (List Char), (∀ s ∈ segs, goodSeg s) ∧
      (normalizedOf nfc cwd p).data = '/' :: joinSegs segs := by
  refine ⟨collapseAbs (splitSlash
      (if (decodeLoop (nfc (stripNulls p))).data.head? = some '/'
        then (decodeLoop (nfc (stripNulls p))).data
        else cwd.data ++ '/' :: (decodeLoop (nfc (stripNulls p))).data)), ?_, ?_⟩
  · exact collapseAbsAux_good_out _ [] (by simp) (splitSlash_no_slash _)
  · show normChars ('/' :: joinSegs (collapseAbs (splitSlash
      (if (decodeLoop (nfc (stripNulls p))).data.head? = some '/'
        then (decodeLoop (nfc (stripNulls p))).data
        else cwd.data ++ '/' :: (decodeLoop (nfc (stripNulls p))).data)))) = _
    exact normChars_fixed _ (collapseAbsAux_good_out _ [] (by simp) (splitSlash_no_slash _))

theorem decodeAux_no_pct : ∀ (cs : List Char), '%' ∉ cs → ∀ fuel, cs.length ≤ fuel →
    decodeAux fuel cs = some cs := by
  intro cs
  induction cs with
  | nil =>
    intro _ fuel _
    cases fuel <;> rfl
  | cons c rest ih =>
    intro h fuel hf
    cases fuel with
    | zero =>
      rw [List.length_cons] at hf
      omega
    | succ f =>
      rw [decodeAux, if_neg (fun hc => h (by rw [hc]; exact List.mem_cons_self _ _)),
        ih (fun hm => h (List.mem_cons_of_mem _ hm)) f
          (by rw [List.length_cons] at hf; omega)]
      rfl

theorem jsDecode_no_pct (s : String) (h : '%' ∉ s.data) :
    jsDecodeURIComponent s = some s := by
  rw [jsDecodeURIComponent, decodeAux_no_pct s.data h s.data.length (le_refl _)]
  rfl

theorem decodeLoop_no_pct (s : String) (h : '%' ∉ s.data) : decodeLoop s = s := by
  rw [decodeLoop]
  by_cases hs : s = ""
  · subst hs
    rfl
  · rw [show s.length + 2 = (s.length + 1) + 1 from rfl, decodeFixAux, if_neg hs,
      jsDecode_no_pct s h]
    show (decodeFixAux (s.length + 1) s s).1 = s
    rw [decodeFixAux, if_pos rfl]

theorem stripNulls_no_null (s : String) (h : '\x00' ∉ s.data) : stripNulls s = s := by
  rw [stripNulls]
  have hf : s.data.filter (fun c => c != '\x00') = s.data := by
    apply List.filter_eq_self.mpr
    intro a ha
    simp only [bne_iff_ne, ne_eq]
    exact fun hc => h (hc ▸ ha)
  rw [hf]

theorem validatePath_ok_inv (nfc : String → String) (isSym : String → Bool)
    (cwd : String) (roots : List String) (p out : String)
    (h : validatePath nfc isSym cwd roots p = .ok out) :
    out = normalizedOf nfc cwd p ∧ isSym out = false ∧ sandboxOk roots out = true := by
  simp only [validatePath] at h
  split at h
  · exact absurd h (by simp)
  · split at h
    · exact absurd h (by simp)
    · split at h
      · rename_i hsym hbox
        obtain rfl : normalizedOf nfc cwd p = out := by injection h
        exact ⟨rfl, by simpa using hsym, hbox⟩
      · exact absurd h (by simp)

/-- C4 amended: on every accepted input whose returned path contains no
percent sign and no null character (and is an NFC fixed point), re-feeding
the returned path into `validatePath` succeeds and returns the same
string.  (Without these provisos the counterexample above applies: a
literal `%2e` or `%00` surviving into the output is decoded on the second
pass.) -/
theorem validatePath_revalidate_fixed (nfc : String → String) (isSym : String → Bool)
    (cwd : String) (roots : List String) (p out : String)
    (h : validatePath nfc isSym cwd roots p = .ok out)
    (hn : nfc out = out) (hp : '%' ∉ out.data) (h0 : '\x00' ∉ out.data) :
    validatePath nfc isSym cwd roots out = .ok out := by
  obtain ⟨heq, hsym, hbox⟩ := validatePath_ok_inv nfc isSym cwd roots p out h
  obtain ⟨segs, hg, hshape⟩ := normalizedOf_shape nfc cwd p
  rw [← heq] at hshape
  have hne : out ≠ "" := by
    intro hc
    rw [hc] at hshape
    have h2 : ([] : List Char) = '/' :: joinSegs segs := hshape
    exact absurd h2 (by simp)
  have hfix : normalizedOf nfc cwd out = out := by
    rw [normalizedOf, stripNulls_no_null out h0, hn, decodeLoop_no_pct out hp]
    have hres : resolvePath cwd out = out := by
      rw [resolvePath, hshape, resolveChars_fixed cwd.data segs hg, ← hshape]
    rw [hres, normalizePosix, hshape, normChars_fixed segs hg, ← hshape]
  rw [validatePath, if_neg hne]
  simp only [hfix, hsym, Bool.false_eq_true, if_false, hbox, if_true]

/-- C4 amended witness: a clean path inside the sandbox validates to
itself, and re-validating returns it unchanged. -/
theorem validatePath_revalidate_fixed_witness :
    validatePath id (fun _ => false) "/" ALLOWED_ROOTS
      "/Users/macbook/Documents/Dropository/notes/todo.txt" =
      .ok "/Users/macbook/Documents/Dropository/notes/todo.txt" :=
  validatePath_revalidate_fixed id (fun _ => false) "/" ALLOWED_ROOTS
    "/Users/macbook/Documents/Dropository/notes/todo.txt"
    "/Users/macbook/Documents/Dropository/notes/todo.txt"
    rfl rfl (by decide) (by decide)

/-- C10 witness: the all-whitespace guarantee applied to a single space. -/
theorem parseSpotlightValue_whitespace_is_zero_witness :
    parseSpotlightValue " " = .num (.finite 0) :=
  parseSpotlightValue_whitespace_is_zero.2 " " (by decide)

end FsGuardian
